import Mathlib

/-!
Shallow embedding of `src/linq/service/linqService.ts` (class `LinqService<T>`).

The wrapper stores an immutable array `data : T[]`; each method is embedded as
a Lean function taking the stored sequence as an explicit `List T` argument.
JavaScript numbers are modelled as exact rationals; a JS `Map` as an
association list in insertion order; a JS `Set` as first-occurrence
deduplication; and `Array.prototype.sort` (stable per the ECMAScript
specification since ES2019) as a stable merge sort in the order induced by the
comparator of the source.  A method that may
`throw new Error("InvalidOperationException")` is embedded in `Except String`,
the throw mapped to `Except.error`.
-/

/-- Embeds `where(predicate)`: `this.data.filter(predicate)`. -/
def whereOp {T : Type} (data : List T) (predicate : T → Bool) : List T :=
  data.filter predicate

/-- Embeds `select(selector)`: `this.data.map(selector)`. -/
def selectOp {T R : Type} (data : List T) (selector : T → R) : List R :=
  data.map selector

/-- Embeds `orderBy(keySelector)`: `[...this.data].sort(cmp)` with the
comparator returning 1 when `keyA > keyB`, -1 when `keyA < keyB`, 0 otherwise,
which orders ascending by derived key; the stable JS sort with this comparator
is the stable merge sort for the order `keySelector a ≤ keySelector b`. -/
def orderByOp {T K : Type} [LinearOrder K] (data : List T) (keySelector : T → K) : List T :=
  data.mergeSort (fun a b => decide (keySelector a ≤ keySelector b))

/-- Embeds `orderByDescending(keySelector)`: as `orderBy` with the comparator
reversed (1 when `keyA < keyB`), ordering descending by derived key, stably. -/
def orderByDescendingOp {T K : Type} [LinearOrder K] (data : List T) (keySelector : T → K) :
    List T :=
  data.mergeSort (fun a b => decide (keySelector b ≤ keySelector a))

/-- Embeds `first()`: throws `InvalidOperationException` when
`this.data.length === 0`, otherwise returns `this.data[0]`. -/
def firstOp {T : Type} (data : List T) : Except String T :=
  match data with
  | [] => .error "InvalidOperationException"
  | x :: _ => .ok x

/-- Embeds `firstOrDefault(defaultValue)`:
`this.data.length > 0 ? this.data[0] : defaultValue`. -/
def firstOrDefaultOp {T : Type} (data : List T) (defaultValue : T) : T :=
  match data with
  | [] => defaultValue
  | x :: _ => x

/-- Embeds `count()`: `this.data.length`. -/
def countOp {T : Type} (data : List T) : Nat :=
  data.length

/-- Embeds `any(predicate)`: `this.data.some(predicate)`. -/
def anyOp {T : Type} (data : List T) (predicate : T → Bool) : Bool :=
  data.any predicate

/-- Embeds `all(predicate)`: `this.data.every(predicate)`. -/
def allOp {T : Type} (data : List T) (predicate : T → Bool) : Bool :=
  data.all predicate

/-- Construction of `new Set(this.data)` followed by iteration: elements are
added in order, an element already present is ignored, and iteration yields
the retained elements in insertion order; `seen` is the set of values added so
far. -/
def distinctAux {T : Type} [DecidableEq T] : List T → List T → List T
  | _, [] => []
  | seen, x :: xs => if x ∈ seen then distinctAux seen xs else x :: distinctAux (x :: seen) xs

/-- Embeds `distinct()`: `[...new Set(this.data)]`. -/
def distinctOp {T : Type} [DecidableEq T] (data : List T) : List T :=
  distinctAux [] data

/-- One iteration of the `groupBy` loop:
`if (!map.has(key)) map.set(key, []); map.get(key)!.push(item)`.  A JS `Map`
keeps entries in insertion order: a new key is appended at the end, and a push
onto an existing key's array leaves the entry where it is. -/
def mapPush {T K : Type} [DecidableEq K] (m : List (K × List T)) (k : K) (x : T) :
    List (K × List T) :=
  match m with
  | [] => [(k, [x])]
  | (k₀, v) :: rest => if k₀ = k then (k₀, v ++ [x]) :: rest else (k₀, v) :: mapPush rest k x

/-- Embeds `groupBy(keySelector)`: the `for (const item of this.data)` loop
threading the map through `mapPush`. -/
def groupByOp {T K : Type} [DecidableEq K] (data : List T) (keySelector : T → K) :
    List (K × List T) :=
  data.foldl (fun m item => mapPush m (keySelector item) item) []

/-- Embeds `Map.prototype.get`: the array stored at key `k`, if any. -/
def findGroup {T K : Type} [DecidableEq K] (m : List (K × List T)) (k : K) : Option (List T) :=
  match m with
  | [] => none
  | (k₀, v) :: rest => if k₀ = k then some v else findGroup rest k

/-- Embeds `average(selector)`: throws on empty input, otherwise
`values.reduce((a, b) => a + b, 0) / values.length` with
`values = this.select(selector)`. -/
def averageOp {T : Type} (data : List T) (selector : T → ℚ) : Except String ℚ :=
  if data.length = 0 then .error "InvalidOperationException"
  else
    let values := selectOp data selector
    .ok (values.foldl (· + ·) 0 / (values.length : ℚ))

/-- Embeds `max(selector)`: throws when `this.data.length == 0` (the `[]` arm),
otherwise `Math.max(...this.select(selector))`, the maximum of the selected
values. -/
def maxOp {T : Type} (data : List T) (selector : T → ℚ) : Except String ℚ :=
  match data with
  | [] => .error "InvalidOperationException"
  | x :: xs => .ok ((xs.map selector).foldl max (selector x))

/-- Embeds `min(selector)`: throws when `this.data.length == 0`, otherwise
`Math.min(...this.select(selector))`, the minimum of the selected values. -/
def minOp {T : Type} (data : List T) (selector : T → ℚ) : Except String ℚ :=
  match data with
  | [] => .error "InvalidOperationException"
  | x :: xs => .ok ((xs.map selector).foldl min (selector x))

/-- Embeds `sum(selector)`:
`values.length == 0 ? 0 : values.reduce((a, b) => a + b, 0)`. -/
def sumOp {T : Type} (data : List T) (selector : T → ℚ) : ℚ :=
  let values := selectOp data selector
  if values.length = 0 then 0 else values.foldl (· + ·) 0

/-- The body of `where` contains no throw, so its translation into the error
monad always returns `ok`; likewise for the other lifted operators below. -/
def whereE {T : Type} (data : List T) (predicate : T → Bool) : Except String (List T) :=
  .ok (whereOp data predicate)

/-- Error-monad view of `select` (its body contains no throw). -/
def selectE {T R : Type} (data : List T) (selector : T → R) : Except String (List R) :=
  .ok (selectOp data selector)

/-- Error-monad view of `orderBy` (its body contains no throw). -/
def orderByE {T K : Type} [LinearOrder K] (data : List T) (keySelector : T → K) :
    Except String (List T) :=
  .ok (orderByOp data keySelector)

/-- Error-monad view of `orderByDescending` (its body contains no throw). -/
def orderByDescendingE {T K : Type} [LinearOrder K] (data : List T) (keySelector : T → K) :
    Except String (List T) :=
  .ok (orderByDescendingOp data keySelector)

/-- Error-monad view of `firstOrDefault` (its body contains no throw). -/
def firstOrDefaultE {T : Type} (data : List T) (defaultValue : T) : Except String T :=
  .ok (firstOrDefaultOp data defaultValue)

/-- Error-monad view of `count` (its body contains no throw). -/
def countE {T : Type} (data : List T) : Except String Nat :=
  .ok (countOp data)

/-- Error-monad view of `any` (its body contains no throw). -/
def anyE {T : Type} (data : List T) (predicate : T → Bool) : Except String Bool :=
  .ok (anyOp data predicate)

/-- Error-monad view of `all` (its body contains no throw). -/
def allE {T : Type} (data : List T) (predicate : T → Bool) : Except String Bool :=
  .ok (allOp data predicate)

/-- Error-monad view of `distinct` (its body contains no throw). -/
def distinctE {T : Type} [DecidableEq T] (data : List T) : Except String (List T) :=
  .ok (distinctOp data)

/-- Error-monad view of `groupBy` (its body contains no throw). -/
def groupByE {T K : Type} [DecidableEq K] (data : List T) (keySelector : T → K) :
    Except String (List (K × List T)) :=
  .ok (groupByOp data keySelector)

/-- Error-monad view of `sum` (its body contains no throw). -/
def sumE {T : Type} (data : List T) (selector : T → ℚ) : Except String ℚ :=
  .ok (sumOp data selector)

/-- C7: with the spec's words, for every sequence `s` and predicate `p`,
`where(p)` is a subsequence of `s` preserving relative order, every element of
the result satisfies `p`, and every element of `s` not in the result fails
`p`. -/
theorem where_spec {T : Type} (s : List T) (p : T → Bool) :
    (whereOp s p).Sublist s ∧
    (∀ x ∈ whereOp s p, p x = true) ∧
    (∀ x ∈ s, x ∉ whereOp s p → p x = false) := by
  refine ⟨List.filter_sublist s, fun x hx => (List.mem_filter.mp hx).2, fun x hx hnx => ?_⟩
  cases hpx : p x with
  | false => rfl
  | true => exact absurd (List.mem_filter.mpr ⟨hx, hpx⟩) hnx

/-- C8: with the spec's words, `all` on the empty sequence is `true` (vacuous
truth) and `any` on the empty sequence is `false`; in general `all p` holds
iff every element satisfies `p` and `any p` holds iff some element does. -/
theorem any_all_spec {T : Type} (s : List T) (p : T → Bool) :
    allOp ([] : List T) p = true ∧
    anyOp ([] : List T) p = false ∧
    (allOp s p = true ↔ ∀ x ∈ s, p x = true) ∧
    (anyOp s p = true ↔ ∃ x ∈ s, p x = true) :=
  ⟨rfl, rfl, List.all_eq_true, List.any_eq_true⟩

/-- C9: with the spec's words, `sum(selector)` returns the sum of the selected
values, returns 0 on the empty sequence, and (having no throw in its body)
never fails. -/
theorem sum_spec {T : Type} (s : List T) (f : T → ℚ) :
    sumOp s f = (s.map f).sum ∧
    sumOp ([] : List T) f = 0 ∧
    (sumE s f).isOk = true := by
  refine ⟨?_, rfl, rfl⟩
  rcases s with _ | ⟨x, xs⟩
  · simp [sumOp, selectOp]
  · simp only [sumOp, selectOp, List.map_cons, List.length_cons]
    rw [if_neg (by simp), List.sum_eq_foldl]

/-- C1: with the spec's words, `first`, `average`, `max` and `min` fail with
the `InvalidOperationException` error exactly when the wrapped sequence is
empty, and every other operator (whose body contains no throw) never raises on
any input. -/
theorem error_spec {T K R : Type} [DecidableEq T] [DecidableEq K] [LinearOrder K]
    (s : List T) (p : T → Bool) (f : T → ℚ) (g : T → R) (key : T → K) (d : T) :
    (firstOp s = .error "InvalidOperationException" ↔ s = []) ∧
    (averageOp s f = .error "InvalidOperationException" ↔ s = []) ∧
    (maxOp s f = .error "InvalidOperationException" ↔ s = []) ∧
    (minOp s f = .error "InvalidOperationException" ↔ s = []) ∧
    (whereE s p).isOk = true ∧
    (selectE s g).isOk = true ∧
    (orderByE s key).isOk = true ∧
    (orderByDescendingE s key).isOk = true ∧
    (firstOrDefaultE s d).isOk = true ∧
    (countE s).isOk = true ∧
    (anyE s p).isOk = true ∧
    (allE s p).isOk = true ∧
    (distinctE s).isOk = true ∧
    (groupByE s key).isOk = true ∧
    (sumE s f).isOk = true := by
  rcases s with _ | ⟨x, xs⟩ <;>
    simp [firstOp, averageOp, maxOp, minOp, whereE, selectE, orderByE,
      orderByDescendingE, firstOrDefaultE, countE, anyE, allE, distinctE,
      groupByE, sumE, Except.isOk, Except.toBool]

/-- State-passing view of `where` for the mutation claim: the wrapper state is
the stored array `this.data`; the pair is (state after the call, returned
value).  The body only reads `this.data`. -/
def whereStep {T : Type} (predicate : T → Bool) (st : List T) : List T × List T :=
  (st, whereOp st predicate)

/-- State-passing view of `select`; the body only reads `this.data`. -/
def selectStep {T R : Type} (selector : T → R) (st : List T) : List T × List R :=
  (st, selectOp st selector)

/-- State-passing view of `orderBy`: `[...this.data]` copies the array, the
copy is what the in-place JS sort reorders, and the stored array is left
unchanged. -/
def orderByStep {T K : Type} [LinearOrder K] (keySelector : T → K) (st : List T) :
    List T × List T :=
  (st, orderByOp st keySelector)

/-- State-passing view of `orderByDescending`: as `orderBy`, sorting a copy. -/
def orderByDescendingStep {T K : Type} [LinearOrder K] (keySelector : T → K) (st : List T) :
    List T × List T :=
  (st, orderByDescendingOp st keySelector)

/-- State-passing view of `first`; the body only reads `this.data`. -/
def firstStep {T : Type} (st : List T) : List T × Except String T :=
  (st, firstOp st)

/-- State-passing view of `firstOrDefault`; the body only reads `this.data`. -/
def firstOrDefaultStep {T : Type} (defaultValue : T) (st : List T) : List T × T :=
  (st, firstOrDefaultOp st defaultValue)

/-- State-passing view of `count`; the body only reads `this.data`. -/
def countStep {T : Type} (st : List T) : List T × Nat :=
  (st, countOp st)

/-- State-passing view of `any`; the body only reads `this.data`. -/
def anyStep {T : Type} (predicate : T → Bool) (st : List T) : List T × Bool :=
  (st, anyOp st predicate)

/-- State-passing view of `all`; the body only reads `this.data`. -/
def allStep {T : Type} (predicate : T → Bool) (st : List T) : List T × Bool :=
  (st, allOp st predicate)

/-- State-passing view of `distinct`: `new Set(this.data)` builds a fresh set,
the stored array is only read. -/
def distinctStep {T : Type} [DecidableEq T] (st : List T) : List T × List T :=
  (st, distinctOp st)

/-- State-passing view of `groupBy`: the loop writes into a fresh `Map`, the
stored array is only read. -/
def groupByStep {T K : Type} [DecidableEq K] (keySelector : T → K) (st : List T) :
    List T × List (K × List T) :=
  (st, groupByOp st keySelector)

/-- State-passing view of `average`; the body only reads `this.data`. -/
def averageStep {T : Type} (selector : T → ℚ) (st : List T) : List T × Except String ℚ :=
  (st, averageOp st selector)

/-- State-passing view of `max`; the body only reads `this.data`. -/
def maxStep {T : Type} (selector : T → ℚ) (st : List T) : List T × Except String ℚ :=
  (st, maxOp st selector)

/-- State-passing view of `min`; the body only reads `this.data`. -/
def minStep {T : Type} (selector : T → ℚ) (st : List T) : List T × Except String ℚ :=
  (st, minOp st selector)

/-- State-passing view of `sum`; the body only reads `this.data`. -/
def sumStep {T : Type} (selector : T → ℚ) (st : List T) : List T × ℚ :=
  (st, sumOp st selector)

/-- C4: with the spec's words, no operator mutates the wrapper's stored
sequence — after any call the state equals the sequence fixed at construction
— and calling any operator twice with the same arguments yields identical
results. -/
theorem no_mutation_spec {T K R : Type} [DecidableEq T] [DecidableEq K] [LinearOrder K]
    (st : List T) (p : T → Bool) (f : T → ℚ) (g : T → R) (key : T → K) (d : T) :
    ((whereStep p st).1 = st ∧ (whereStep p ((whereStep p st).1)).2 = (whereStep p st).2) ∧
    ((selectStep g st).1 = st ∧ (selectStep g ((selectStep g st).1)).2 = (selectStep g st).2) ∧
    ((orderByStep key st).1 = st ∧
      (orderByStep key ((orderByStep key st).1)).2 = (orderByStep key st).2) ∧
    ((orderByDescendingStep key st).1 = st ∧
      (orderByDescendingStep key ((orderByDescendingStep key st).1)).2 =
        (orderByDescendingStep key st).2) ∧
    ((firstStep st).1 = st ∧ (firstStep ((firstStep st).1)).2 = (firstStep st).2) ∧
    ((firstOrDefaultStep d st).1 = st ∧
      (firstOrDefaultStep d ((firstOrDefaultStep d st).1)).2 = (firstOrDefaultStep d st).2) ∧
    ((countStep st).1 = st ∧ (countStep ((countStep st).1)).2 = (countStep st).2) ∧
    ((anyStep p st).1 = st ∧ (anyStep p ((anyStep p st).1)).2 = (anyStep p st).2) ∧
    ((allStep p st).1 = st ∧ (allStep p ((allStep p st).1)).2 = (allStep p st).2) ∧
    ((distinctStep st).1 = st ∧ (distinctStep ((distinctStep st).1)).2 = (distinctStep st).2) ∧
    ((groupByStep key st).1 = st ∧
      (groupByStep key ((groupByStep key st).1)).2 = (groupByStep key st).2) ∧
    ((averageStep f st).1 = st ∧ (averageStep f ((averageStep f st).1)).2 = (averageStep f st).2) ∧
    ((maxStep f st).1 = st ∧ (maxStep f ((maxStep f st).1)).2 = (maxStep f st).2) ∧
    ((minStep f st).1 = st ∧ (minStep f ((minStep f st).1)).2 = (minStep f st).2) ∧
    ((sumStep f st).1 = st ∧ (sumStep f ((sumStep f st).1)).2 = (sumStep f st).2) :=
  ⟨⟨rfl, rfl⟩, ⟨rfl, rfl⟩, ⟨rfl, rfl⟩, ⟨rfl, rfl⟩, ⟨rfl, rfl⟩, ⟨rfl, rfl⟩, ⟨rfl, rfl⟩,
    ⟨rfl, rfl⟩, ⟨rfl, rfl⟩, ⟨rfl, rfl⟩, ⟨rfl, rfl⟩, ⟨rfl, rfl⟩, ⟨rfl, rfl⟩, ⟨rfl, rfl⟩,
    ⟨rfl, rfl⟩⟩

/-- A comparison returning `true` on any two elements satisfying `p` makes the
filtered list pairwise-related, so stability of `mergeSort` pins the filtered
part of the output: filtering the sorted list by `p` gives back the filtered
input. -/
theorem mergeSort_filter_eq {T : Type} (le : T → T → Bool)
    (htr : ∀ a b c, le a b = true → le b c = true → le a c = true)
    (hto : ∀ a b, (le a b || le b a) = true)
    (s : List T) (p : T → Bool)
    (hp : ∀ a b, p a = true → p b = true → le a b = true) :
    (s.mergeSort le).filter p = s.filter p := by
  have hpair : (s.filter p).Pairwise (fun a b => le a b = true) :=
    List.pairwise_of_forall_mem_list fun a ha b hb =>
      hp a b (List.mem_filter.mp ha).2 (List.mem_filter.mp hb).2
  have hsub : (s.filter p).Sublist (s.mergeSort le) :=
    List.sublist_mergeSort htr hto hpair (List.filter_sublist s)
  have hself : (s.filter p).filter p = s.filter p :=
    List.filter_eq_self.mpr fun a ha => (List.mem_filter.mp ha).2
  have hsub2 : (s.filter p).Sublist ((s.mergeSort le).filter p) := by
    have := List.Sublist.filter p hsub
    rwa [hself] at this
  have hperm : ((s.mergeSort le).filter p).Perm (s.filter p) :=
    (List.mergeSort_perm s le).filter p
  exact (hsub2.eq_of_length hperm.length_eq.symm).symm

/-- The output of `orderBy` is pairwise ascending in the derived key. -/
theorem orderBy_pairwise {T K : Type} [LinearOrder K] (s : List T) (key : T → K) :
    (orderByOp s key).Pairwise (fun a b => key a ≤ key b) := by
  have h := @List.sorted_mergeSort _ (fun a b => decide (key a ≤ key b))
    (fun a b c hab hbc => by
      simp only [decide_eq_true_eq] at hab hbc ⊢; exact le_trans hab hbc)
    (fun a b => by
      simp only [Bool.or_eq_true, decide_eq_true_eq]; exact le_total _ _)
    s
  exact h.imp fun hab => by simpa only [decide_eq_true_eq] using hab

/-- For every key value, filtering the output of `orderBy` by that key gives
the same list as filtering the input: equal-key elements keep their original
relative order. -/
theorem orderBy_filter_eq {T K : Type} [LinearOrder K] (s : List T) (key : T → K) (k : K) :
    (orderByOp s key).filter (fun x => decide (key x = k)) =
      s.filter (fun x => decide (key x = k)) := by
  refine mergeSort_filter_eq _
    (fun a b c hab hbc => by
      simp only [decide_eq_true_eq] at hab hbc ⊢; exact le_trans hab hbc)
    (fun a b => by
      simp only [Bool.or_eq_true, decide_eq_true_eq]; exact le_total _ _)
    s _ (fun a b ha hb => ?_)
  simp only [decide_eq_true_eq] at ha hb ⊢
  rw [ha, hb]

/-- C2: with the spec's words, for every sequence and key selector into a
totally ordered key type, `orderBy` returns a permutation of the sequence that
is sorted ascending by the derived key, and elements with equal keys keep
their original relative order (stable sort), stated as: for every key value,
filtering the output by that key gives the same list as filtering the
input. -/
theorem orderBy_spec {T K : Type} [LinearOrder K] (s : List T) (key : T → K) :
    (orderByOp s key).Perm s ∧
    (orderByOp s key).Pairwise (fun a b => key a ≤ key b) ∧
    ∀ k : K, (orderByOp s key).filter (fun x => decide (key x = k)) =
      s.filter (fun x => decide (key x = k)) :=
  ⟨List.mergeSort_perm s _, orderBy_pairwise s key, orderBy_filter_eq s key⟩

/-- C3: with the spec's words, `orderByDescending` returns a permutation of
the sequence sorted descending by the derived key, stable for equal keys (for
every key value, filtering the output by that key gives filtering the input),
and its primary ordering is the exact reverse of `orderBy` with the same key
selector: the derived-key sequences are mirror images, while ties are not
reversed. -/
theorem orderByDescending_spec {T K : Type} [LinearOrder K] (s : List T) (key : T → K) :
    (orderByDescendingOp s key).Perm s ∧
    (orderByDescendingOp s key).Pairwise (fun a b => key b ≤ key a) ∧
    (∀ k : K, (orderByDescendingOp s key).filter (fun x => decide (key x = k)) =
      s.filter (fun x => decide (key x = k))) ∧
    (orderByDescendingOp s key).map key = ((orderByOp s key).map key).reverse := by
  have hpair : (orderByDescendingOp s key).Pairwise (fun a b => key b ≤ key a) := by
    have h := @List.sorted_mergeSort _ (fun a b => decide (key b ≤ key a))
      (fun a b c hab hbc => by
        simp only [decide_eq_true_eq] at hab hbc ⊢; exact le_trans hbc hab)
      (fun a b => by
        simp only [Bool.or_eq_true, decide_eq_true_eq]; exact le_total _ _)
      s
    exact h.imp fun hab => by simpa only [decide_eq_true_eq] using hab
  refine ⟨List.mergeSort_perm s _, hpair, ?_, ?_⟩
  · intro k
    refine mergeSort_filter_eq _
      (fun a b c hab hbc => by
        simp only [decide_eq_true_eq] at hab hbc ⊢; exact le_trans hbc hab)
      (fun a b => by
        simp only [Bool.or_eq_true, decide_eq_true_eq]; exact le_total _ _)
      s _ (fun a b ha hb => ?_)
    simp only [decide_eq_true_eq] at ha hb ⊢
    rw [ha, hb]
  · haveI : IsAntisymm K (fun a b => b ≤ a) := ⟨fun a b h1 h2 => le_antisymm h2 h1⟩
    have hperm : ((orderByDescendingOp s key).map key).Perm
        (((orderByOp s key).map key).reverse) := by
      refine ((List.mergeSort_perm s _).map key).trans ?_
      exact (((List.mergeSort_perm s _).map key).symm.trans
        (List.reverse_perm _).symm)
    have h1 : List.Sorted (fun a b : K => b ≤ a) ((orderByDescendingOp s key).map key) :=
      List.pairwise_map.mpr hpair
    have h2 : List.Sorted (fun a b : K => b ≤ a) (((orderByOp s key).map key).reverse) := by
      refine List.pairwise_reverse.mpr ?_
      exact List.pairwise_map.mpr (orderBy_pairwise s key)
    exact List.eq_of_perm_of_sorted hperm h1 h2

/-- Recursive characterization of first-occurrence deduplication: keep the
head, drop its later duplicates, recurse on the rest. -/
def distinctSimple {T : Type} [DecidableEq T] : List T → List T
  | [] => []
  | x :: xs => x :: distinctSimple (xs.filter (fun y => decide (y ≠ x)))
termination_by l => l.length
decreasing_by
  simp only [List.length_cons]
  exact Nat.lt_succ_of_le (List.length_filter_le _ _)

/-- The set-iteration form of `distinct` agrees with the recursive
characterization, once the values already seen are filtered away. -/
theorem distinctAux_eq_simple {T : Type} [DecidableEq T] (seen l : List T) :
    distinctAux seen l = distinctSimple (l.filter (fun y => decide (y ∉ seen))) := by
  induction l generalizing seen with
  | nil => simp [distinctAux, distinctSimple]
  | cons x xs ih =>
    by_cases hx : x ∈ seen
    · rw [distinctAux, if_pos hx, ih seen, List.filter_cons_of_neg (by simpa using hx)]
    · rw [distinctAux, if_neg hx, ih (x :: seen),
        List.filter_cons_of_pos (by simpa using hx), distinctSimple]
      congr 1
      rw [List.filter_filter]
      congr 1
      apply List.filter_congr
      intro y _
      simp only [List.mem_cons, not_or, decide_not]
      cases hyx : decide (y = x) <;> cases hys : decide (y ∈ seen) <;>
        simp_all [decide_eq_true_eq]

/-- The embedded `distinct` equals the recursive characterization. -/
theorem distinctOp_eq_simple {T : Type} [DecidableEq T] (l : List T) :
    distinctOp l = distinctSimple l := by
  rw [distinctOp, distinctAux_eq_simple]
  congr 1
  exact List.filter_eq_self.mpr (by simp)

/-- First-occurrence deduplication keeps exactly the values of the input. -/
theorem mem_distinctSimple {T : Type} [DecidableEq T] (l : List T) (y : T) :
    y ∈ distinctSimple l ↔ y ∈ l := by
  induction l using distinctSimple.induct with
  | case1 => simp [distinctSimple]
  | case2 x xs ih =>
    rw [distinctSimple]
    simp only [List.mem_cons, ih, List.mem_filter, decide_eq_true_eq]
    constructor
    · rintro (rfl | ⟨hy, _⟩)
      · exact Or.inl rfl
      · exact Or.inr hy
    · rintro (rfl | hy)
      · exact Or.inl rfl
      · by_cases hxy : y = x
        · exact Or.inl hxy
        · exact Or.inr ⟨hy, hxy⟩

/-- First-occurrence deduplication yields a subsequence of the input. -/
theorem distinctSimple_sublist {T : Type} [DecidableEq T] (l : List T) :
    (distinctSimple l).Sublist l := by
  induction l using distinctSimple.induct with
  | case1 => simp [distinctSimple]
  | case2 x xs ih =>
    rw [distinctSimple]
    exact List.Sublist.cons₂ x (ih.trans (List.filter_sublist xs))

/-- First-occurrence deduplication yields no duplicate values. -/
theorem distinctSimple_nodup {T : Type} [DecidableEq T] (l : List T) :
    (distinctSimple l).Nodup := by
  induction l using distinctSimple.induct with
  | case1 => simp [distinctSimple]
  | case2 x xs ih =>
    rw [distinctSimple]
    refine List.nodup_cons.mpr ⟨fun hx => ?_, ih⟩
    have := (mem_distinctSimple _ _).mp hx
    simp [List.mem_filter] at this

/-- Filtering preserves the relative order of first occurrences: if `a` comes
strictly before `b` among the kept elements, it did in the original list. -/
theorem indexOf_filter_lt {T : Type} [DecidableEq T] (p : T → Bool) (l : List T) (a b : T)
    (ha : a ∈ l.filter p) (hb : b ∈ l.filter p)
    (h : (l.filter p).indexOf a < (l.filter p).indexOf b) :
    l.indexOf a < l.indexOf b := by
  induction l with
  | nil => simp at ha
  | cons c t ih =>
    by_cases hpc : p c
    · rw [List.filter_cons_of_pos hpc] at ha hb h
      by_cases hac : a = c
      · subst hac
        have hba : b ≠ a := by
          rintro rfl
          rw [List.indexOf_cons_self] at h
          exact absurd h (lt_irrefl _)
        rw [List.indexOf_cons_self, List.indexOf_cons_ne _ (Ne.symm hba)]
        exact Nat.succ_pos _
      · by_cases hbc : b = c
        · subst hbc
          rw [List.indexOf_cons_ne _ (Ne.symm hac), List.indexOf_cons_self] at h
          exact absurd h (Nat.not_lt_zero _)
        · rw [List.indexOf_cons_ne _ (Ne.symm hac), List.indexOf_cons_ne _ (Ne.symm hbc)] at h ⊢
          have ha' : a ∈ t.filter p := by
            rcases List.mem_cons.mp ha with h' | h'
            · exact absurd h' hac
            · exact h'
          have hb' : b ∈ t.filter p := by
            rcases List.mem_cons.mp hb with h' | h'
            · exact absurd h' hbc
            · exact h'
          exact Nat.succ_lt_succ (ih ha' hb' (Nat.lt_of_succ_lt_succ h))
    · rw [List.filter_cons_of_neg hpc] at ha hb h
      have hac : a ≠ c := fun e => hpc (e ▸ (List.mem_filter.mp ha).2)
      have hbc : b ≠ c := fun e => hpc (e ▸ (List.mem_filter.mp hb).2)
      rw [List.indexOf_cons_ne _ (Ne.symm hac), List.indexOf_cons_ne _ (Ne.symm hbc)]
      exact Nat.succ_lt_succ (ih ha hb h)

/-- The elements retained by first-occurrence deduplication appear in the
order of their first occurrences in the input. -/
theorem distinctSimple_pairwise {T : Type} [DecidableEq T] (l : List T) :
    (distinctSimple l).Pairwise (fun a b => l.indexOf a < l.indexOf b) := by
  induction l using distinctSimple.induct with
  | case1 => simp [distinctSimple]
  | case2 x xs ih =>
    rw [distinctSimple]
    refine List.Pairwise.cons ?_ ?_
    · intro b hb
      have hbF := (mem_distinctSimple _ _).mp hb
      have hbx : b ≠ x := by simpa using (List.mem_filter.mp hbF).2
      rw [List.indexOf_cons_self, List.indexOf_cons_ne _ (Ne.symm hbx)]
      exact Nat.succ_pos _
    · refine List.Pairwise.imp_of_mem ?_ ih
      intro a b hamem hbmem hR
      have haF := (mem_distinctSimple _ _).mp hamem
      have hbF := (mem_distinctSimple _ _).mp hbmem
      have hax : a ≠ x := by simpa using (List.mem_filter.mp haF).2
      have hbx : b ≠ x := by simpa using (List.mem_filter.mp hbF).2
      have hxs : xs.indexOf a < xs.indexOf b := indexOf_filter_lt _ xs a b haF hbF hR
      rw [List.indexOf_cons_ne _ (Ne.symm hax), List.indexOf_cons_ne _ (Ne.symm hbx)]
      exact Nat.succ_lt_succ hxs

/-- C6: with the spec's words, `distinct()` returns a subsequence of the input
with exactly one representative of each value (no duplicates, same membership)
arranged in the order of the first occurrences, and an empty input gives an
empty result. -/
theorem distinct_spec {T : Type} [DecidableEq T] (s : List T) :
    distinctOp ([] : List T) = [] ∧
    (distinctOp s).Sublist s ∧
    (distinctOp s).Nodup ∧
    (∀ x, x ∈ distinctOp s ↔ x ∈ s) ∧
    (distinctOp s).Pairwise (fun a b => s.indexOf a < s.indexOf b) := by
  refine ⟨rfl, ?_, ?_, ?_, ?_⟩ <;> rw [distinctOp_eq_simple]
  · exact distinctSimple_sublist s
  · exact distinctSimple_nodup s
  · exact fun x => mem_distinctSimple s x
  · exact distinctSimple_pairwise s

/-- Keys of the map after one push: unchanged for a present key, appended at
the end for a new one. -/
theorem mapPush_keys {T K : Type} [DecidableEq K] (m : List (K × List T)) (k : K) (x : T) :
    (mapPush m k x).map Prod.fst =
      if k ∈ m.map Prod.fst then m.map Prod.fst else m.map Prod.fst ++ [k] := by
  induction m with
  | nil => simp [mapPush]
  | cons e rest ih =>
    obtain ⟨k₀, v⟩ := e
    by_cases hk : k₀ = k
    · subst hk
      simp [mapPush]
    · rw [mapPush, if_neg hk]
      simp only [List.map_cons, ih, List.mem_cons]
      by_cases hmem : k ∈ rest.map Prod.fst
      · rw [if_pos hmem, if_pos (Or.inr hmem)]
      · rw [if_neg hmem, if_neg ?_, List.cons_append]
        rintro (h | h)
        · exact hk (h.symm)
        · exact hmem h

/-- Lookup in the map after one push: the pushed key now holds its previous
array (empty when absent) with `x` appended; other keys are untouched. -/
theorem findGroup_mapPush {T K : Type} [DecidableEq K] (m : List (K × List T)) (k q : K)
    (x : T) :
    findGroup (mapPush m k x) q =
      if q = k then some (((findGroup m k).getD []) ++ [x]) else findGroup m q := by
  induction m with
  | nil =>
    by_cases h : q = k
    · subst h; simp [mapPush, findGroup]
    · have h' : ¬k = q := fun e => h e.symm
      simp [mapPush, findGroup, h, h']
  | cons e rest ih =>
    obtain ⟨k₀, v⟩ := e
    by_cases hk : k₀ = k
    · subst hk
      rw [mapPush, if_pos rfl]
      by_cases hq : q = k₀
      · subst hq
        rw [findGroup, if_pos rfl, if_pos rfl, findGroup, if_pos rfl]
        rfl
      · rw [findGroup, if_neg (fun e => hq e.symm), if_neg hq, findGroup,
          if_neg (fun e => hq e.symm)]
    · rw [mapPush, if_neg hk]
      by_cases hq : k₀ = q
      · subst hq
        have hqk : ¬k₀ = k := hk
        rw [findGroup, if_pos rfl, if_neg hqk, findGroup, if_pos rfl]
      · rw [findGroup, if_neg hq, ih, findGroup, if_neg hk, findGroup, if_neg hq]

/-- Folding the `groupBy` loop over `s`, a key already bound to `g` ends bound
to `g` followed by the elements of `s` whose derived key is that key, in
order. -/
theorem findGroup_foldl_some {T K : Type} [DecidableEq K] (key : T → K) (s : List T)
    (m : List (K × List T)) (k : K) (g : List T) (h : findGroup m k = some g) :
    findGroup (s.foldl (fun m item => mapPush m (key item) item) m) k =
      some (g ++ s.filter (fun x => decide (key x = k))) := by
  induction s generalizing m g with
  | nil => simpa using h
  | cons x xs ih =>
    rw [List.foldl_cons]
    by_cases hx : key x = k
    · have h2 : findGroup (mapPush m (key x) x) k = some (g ++ [x]) := by
        rw [findGroup_mapPush, if_pos hx.symm, hx, h]
        rfl
      rw [ih _ _ h2, List.filter_cons_of_pos (by simpa using hx)]
      simp
    · have h2 : findGroup (mapPush m (key x) x) k = some g := by
        rw [findGroup_mapPush, if_neg (fun e => hx e.symm)]
        exact h
      rw [ih _ _ h2, List.filter_cons_of_neg (by simpa using hx)]

/-- Folding the `groupBy` loop over `s`, a key not yet bound ends bound to
exactly the elements of `s` whose derived key is that key, in order, and stays
unbound when there are none. -/
theorem findGroup_foldl_none {T K : Type} [DecidableEq K] (key : T → K) (s : List T)
    (m : List (K × List T)) (k : K) (h : findGroup m k = none) :
    findGroup (s.foldl (fun m item => mapPush m (key item) item) m) k =
      if (s.filter (fun x => decide (key x = k))).isEmpty = true then none
      else some (s.filter (fun x => decide (key x = k))) := by
  induction s generalizing m with
  | nil => simpa using h
  | cons x xs ih =>
    rw [List.foldl_cons]
    by_cases hx : key x = k
    · have h2 : findGroup (mapPush m (key x) x) k = some [x] := by
        rw [findGroup_mapPush, if_pos hx.symm, hx, h]
        rfl
      rw [findGroup_foldl_some key xs _ _ _ h2,
        List.filter_cons_of_pos (by simpa using hx)]
      rw [if_neg (by simp)]
      rfl
    · have h2 : findGroup (mapPush m (key x) x) k = none := by
        rw [findGroup_mapPush, if_neg (fun e => hx e.symm)]
        exact h
      rw [ih _ h2, List.filter_cons_of_neg (by simpa using hx)]

/-- First-occurrence deduplication only depends on the membership of the seen
accumulator. -/
theorem distinctAux_congr {T : Type} [DecidableEq T] (s₁ s₂ l : List T)
    (h : ∀ y, y ∈ s₁ ↔ y ∈ s₂) : distinctAux s₁ l = distinctAux s₂ l := by
  induction l generalizing s₁ s₂ with
  | nil => rfl
  | cons x xs ih =>
    rw [distinctAux, distinctAux]
    by_cases hx : x ∈ s₁
    · rw [if_pos hx, if_pos ((h x).mp hx)]
      exact ih _ _ h
    · rw [if_neg hx, if_neg (fun c => hx ((h x).mpr c))]
      congr 1
      refine ih _ _ (fun y => ?_)
      simp only [List.mem_cons, h y]

/-- Keys accumulated by the `groupBy` loop: the keys already present followed
by the first occurrences of the new derived keys, in encounter order. -/
theorem groupBy_keys_aux {T K : Type} [DecidableEq K] (key : T → K) (s : List T)
    (m : List (K × List T)) :
    (s.foldl (fun m item => mapPush m (key item) item) m).map Prod.fst =
      m.map Prod.fst ++ distinctAux (m.map Prod.fst) (s.map key) := by
  induction s generalizing m with
  | nil => simp [distinctAux]
  | cons x xs ih =>
    rw [List.foldl_cons, ih, mapPush_keys, List.map_cons, distinctAux]
    by_cases hx : key x ∈ m.map Prod.fst
    · rw [if_pos hx, if_pos hx]
    · rw [if_neg hx, if_neg hx,
        distinctAux_congr (m.map Prod.fst ++ [key x]) (key x :: m.map Prod.fst) _
          (fun y => by simp [or_comm])]
      simp

/-- The keys of `groupBy` are the first-occurrence deduplication of the
derived keys of the input, in encounter order. -/
theorem groupBy_keys {T K : Type} [DecidableEq K] (s : List T) (key : T → K) :
    (groupByOp s key).map Prod.fst = distinctOp (s.map key) := by
  rw [groupByOp, groupBy_keys_aux]
  simp [distinctOp]

/-- In a map with no duplicate keys, a member entry is what lookup returns. -/
theorem findGroup_eq_some_of_mem {T K : Type} [DecidableEq K] (m : List (K × List T))
    (k : K) (g : List T) (hmem : (k, g) ∈ m) (hnd : (m.map Prod.fst).Nodup) :
    findGroup m k = some g := by
  induction m with
  | nil => simp at hmem
  | cons e rest ih =>
    obtain ⟨k₀, v⟩ := e
    rw [List.map_cons, List.nodup_cons] at hnd
    rcases List.mem_cons.mp hmem with he | he
    · cases he
      rw [findGroup, if_pos rfl]
    · have hk : k₀ ≠ k := by
        rintro rfl
        exact hnd.1 (List.mem_map.mpr ⟨(k₀, g), he, rfl⟩)
      rw [findGroup, if_neg hk]
      exact ih he hnd.2

/-- C5: with the spec's words, `groupBy(keySelector)` maps each occurring key
to exactly the elements whose derived key equals it, in original sequence
order; keys appear in first-encountered order; a key occurs in the map iff
some element derives it; and an empty input yields an empty map. -/
theorem groupBy_spec {T K : Type} [DecidableEq K] (s : List T) (key : T → K) :
    groupByOp ([] : List T) key = [] ∧
    (groupByOp s key).map Prod.fst = distinctOp (s.map key) ∧
    (∀ k g, (k, g) ∈ groupByOp s key → g = s.filter (fun x => decide (key x = k))) ∧
    (∀ k : K, k ∈ (groupByOp s key).map Prod.fst ↔ ∃ x ∈ s, key x = k) := by
  refine ⟨rfl, groupBy_keys s key, ?_, ?_⟩
  · intro k g hmem
    have hnd : ((groupByOp s key).map Prod.fst).Nodup := by
      rw [groupBy_keys, distinctOp_eq_simple]
      exact distinctSimple_nodup _
    have hf := findGroup_eq_some_of_mem _ _ _ hmem hnd
    rw [groupByOp] at hf
    rw [findGroup_foldl_none key s [] k rfl] at hf
    cases hempty : (s.filter (fun x => decide (key x = k))).isEmpty with
    | true =>
      rw [if_pos hempty] at hf
      exact absurd hf (by simp)
    | false =>
      rw [if_neg (by simp [hempty])] at hf
      exact (Option.some_inj.mp hf).symm
  · intro k
    rw [groupBy_keys, distinctOp_eq_simple]
    refine (mem_distinctSimple _ _).trans ?_
    simp [List.mem_map, eq_comm]

/-- C10: for every non-empty sequence and numeric selector, the average
relates to sum and count by an exact equation of the embedded rational
arithmetic: `average` succeeds with a value `a` and `a * count = sum`. -/
theorem average_mul_count {T : Type} (s : List T) (f : T → ℚ) (h : s ≠ []) :
    ∃ a : ℚ, averageOp s f = .ok a ∧ a * (countOp s : ℚ) = sumOp s f := by
  have hlen : s.length ≠ 0 := fun e => h (List.length_eq_zero.mp e)
  refine ⟨(s.map f).foldl (· + ·) 0 / ((s.map f).length : ℚ), ?_, ?_⟩
  · simp only [averageOp, selectOp]
    rw [if_neg hlen]
  · rw [countOp, List.length_map]
    rw [div_mul_cancel₀ _ (by exact_mod_cast hlen)]
    simp only [sumOp, selectOp]
    rw [if_neg (by simpa using hlen)]

/-- Witness for C10: on the concrete sequence `[1, 2, 3]` of rationals with
the identity selector, the average is 2, the count 3 and the sum 6. -/
theorem average_mul_count_witness :
    ∃ a : ℚ, averageOp [(1 : ℚ), 2, 3] id = .ok a ∧
      a * (countOp [(1 : ℚ), 2, 3] : ℚ) = sumOp [(1 : ℚ), 2, 3] id :=
  average_mul_count [(1 : ℚ), 2, 3] id (by decide)
